import Mathlib

/-!
Verification of the PriceAdvisor application (Streamlit/app.py).

The embedding models the data pipeline of the app: loading the gold table
(parse timestamps, drop unparseable rows, sort by time), selecting a
market/date slice, converting €/MWh to €/kWh, quantile thresholds with
linear interpolation, the baking recommendation rule, baking cost,
percent delta versus the daily average, and the cheapest/priciest hour
rankings (stable n-smallest / n-largest).

Prices are modelled as exact rationals; timestamps as hours since an
epoch, so that the calendar date of a timestamp is its division by 24.
-/

/- Batteries marks the rational arithmetic operations irreducible, which
blocks definitional evaluation of concrete price computations; restore
reducibility for this file so concrete instances can be decided. -/
attribute [local semireducible] Rat.add Rat.sub Rat.mul Rat.inv

/-- A raw input row of gold.csv: the result of parsing the date_cet cell
(`none` when `pd.to_datetime(..., errors="coerce")` yields NaT) together
with the market price cells (one `Option` per market column, `none` for a
missing price). -/
structure RawRow where
  ts? : Option Nat
  prices : List (Option ℚ)
deriving Repr, DecidableEq

/-- A loaded row: a parsed timestamp plus the market price cells. -/
structure Row where
  ts : Nat
  prices : List (Option ℚ)
deriving Repr, DecidableEq

/-- Parsing step of `load_data`: a raw row survives exactly when its
timestamp parsed. -/
def parseRow (r : RawRow) : Option Row :=
  r.ts?.map fun t => { ts := t, prices := r.prices }

/-- `load_data`: read the table, coerce timestamps, drop rows whose
timestamp failed to parse (`dropna(subset=["date_cet"])`), and sort
ascending by timestamp (`sort_values("date_cet")`). -/
def load_data (rows : List RawRow) : List Row :=
  (rows.filterMap parseRow).mergeSort fun a b => decide (a.ts ≤ b.ts)

/-- The calendar date of an hourly timestamp (`index.normalize()`):
hours since epoch divided by 24. -/
def normalizeTs (t : Nat) : Nat := t / 24

/-- A row of the selected day slice: timestamp and the (present) price
for the selected market. -/
structure SliceRow where
  ts : Nat
  price : ℚ
deriving Repr, DecidableEq

instance : Inhabited SliceRow := ⟨⟨0, 0⟩⟩

/-- The two user-visible error conditions of the app. -/
inductive AppError where
  | dataNotFound
  | emptySlice
deriving Repr, DecidableEq

/-- One row's contribution to the day slice: keep the row when its
timestamp normalizes to the selected date and the selected market's
price is present, projecting to that single price. -/
def sliceRowOf (market : Nat) (date : Nat) (r : Row) : Option SliceRow :=
  if normalizeTs r.ts = date then
    (r.prices.getD market none).map fun p => { ts := r.ts, price := p }
  else
    none

/-- `selectSlice`:
`today = gold_ts.loc[gold_ts.index.normalize() == selected_date, [country]].dropna()`
followed by the `if today.empty: st.error(...); st.stop()` check. -/
def selectSlice (table : List Row) (market : Nat) (date : Nat) :
    Except AppError (List SliceRow) :=
  let s := table.filterMap (sliceRowOf market date)
  if s.isEmpty then .error .emptySlice else .ok s

/-- `toKwh`: `today["price_kwh"] = today[country] / 1000`, applied to
every row of the slice; the timestamp is untouched. -/
def toKwh (s : List SliceRow) : List SliceRow :=
  s.map fun r => { r with price := r.price / 1000 }

/-- The latest available hour's price: `today.tail(1)` then the single
price value (the slice is non-empty whenever this is reached). -/
def current_price (ks : List SliceRow) : ℚ :=
  (ks.map (·.price)).getLastD 0

/-- The latest available hour's timestamp. -/
def current_time (ks : List SliceRow) : Nat :=
  (ks.map (·.ts)).getLastD 0

/-- `dailyAverage`: `today["price_kwh"].mean()`. -/
def dailyAverage (ks : List SliceRow) : ℚ :=
  (ks.map (·.price)).sum / (ks.length : ℚ)

/-- Linear-interpolation quantile evaluated at a real-valued position
`h` into the sorted value list `v`: with `i = ⌊h⌋`,
`v[i] + (h - i) * (v[i+1] - v[i])` (the upper index clamped, as numpy
does; when `i+1` is out of range the fraction is zero anyway). -/
def quantileAt (v : List ℚ) (h : ℚ) : ℚ :=
  v.getD (⌊h⌋).toNat 0 +
    (h - ((⌊h⌋).toNat : ℚ)) *
      (v.getD ((⌊h⌋).toNat + 1) (v.getD (⌊h⌋).toNat 0) - v.getD (⌊h⌋).toNat 0)

/-- `Series.quantile(q)` with the default linear interpolation: sort the
values and interpolate at position `(n - 1) * q`. -/
def quantile (xs : List ℚ) (q : ℚ) : ℚ :=
  quantileAt (xs.mergeSort fun a b => decide (a ≤ b)) (((xs.length : ℚ) - 1) * q)

/-- `low_thr = today["price_kwh"].quantile(0.33)`. -/
def low_thr (ks : List SliceRow) : ℚ :=
  quantile (ks.map (·.price)) (33 / 100)

/-- `high_thr = today["price_kwh"].quantile(0.66)`. -/
def high_thr (ks : List SliceRow) : ℚ :=
  quantile (ks.map (·.price)) (66 / 100)

/-- The three recommendation labels. -/
inductive Reco where
  | applePie
  | cheesecake
  | flexible
deriving Repr, DecidableEq

/-- `bake_reco`: first branch `price <= low_thr`, second branch
`price >= high_thr`, else flexible; paired with the severity string the
app dispatches on. -/
def bake_reco (lowT highT price : ℚ) : Reco × String :=
  if price ≤ lowT then (.applePie, "success")
  else if price ≥ highT then (.cheesecake, "error")
  else (.flexible, "info")

/-- `OVEN_KW = 2.5`. -/
def OVEN_KW : ℚ := 5 / 2

/-- `BAKE_HOURS = 1.0`. -/
def BAKE_HOURS : ℚ := 1

/-- `BAKE_KWH = OVEN_KW * BAKE_HOURS`. -/
def BAKE_KWH : ℚ := OVEN_KW * BAKE_HOURS

/-- `bake_cost = BAKE_KWH * price_kwh`. -/
def bake_cost (price_kwh : ℚ) : ℚ := BAKE_KWH * price_kwh

/-- `pct_vs_avg = ((current - daily_avg) / daily_avg) * 100`, a Python
float division that fails (raises) when the divisor is zero; the failure
is modelled as `none`. -/
def pct_vs_avg (current daily_avg : ℚ) : Option ℚ :=
  if daily_avg = 0 then none
  else some (((current - daily_avg) / daily_avg) * 100)

/-- `today.nsmallest(n, "price_kwh")`: the `n` smallest prices in
ascending order, ties kept in original order (pandas keep="first"),
modelled by a stable sort followed by `take`. -/
def nsmallest (n : Nat) (ks : List SliceRow) : List SliceRow :=
  (ks.mergeSort fun a b => decide (a.price ≤ b.price)).take n

/-- `today.nlargest(n, "price_kwh")`: the `n` largest prices in
descending order, ties kept in original order (pandas keep="first"). -/
def nlargest (n : Nat) (ks : List SliceRow) : List SliceRow :=
  (ks.mergeSort fun a b => decide (b.price ≤ a.price)).take n

/-- Everything the page renders for one (table, market, date, n)
selection. -/
structure Outputs where
  titleNow : Reco
  kindNow : String
  titleDay : Reco
  kindDay : String
  priceNowCents : ℚ
  bakeCostNow : ℚ
  pctVsAvg : Option ℚ
  avgCents : ℚ
  bakeCostAvg : ℚ
  chart : List (Nat × ℚ)
  cheapestTable : List (Nat × ℚ)
  priciestTable : List (Nat × ℚ)
deriving Repr, DecidableEq

/-- Assemble the rendered outputs from the kwh slice and the slider
value: the two recommendation panels, the cents/kWh chart and the two
ranked tables. -/
def renderOutputs (ks : List SliceRow) (n : Nat) : Outputs :=
  let cur := current_price ks
  let avg := dailyAverage ks
  let lowT := low_thr ks
  let highT := high_thr ks
  let now := bake_reco lowT highT cur
  let day := bake_reco lowT highT avg
  { titleNow := now.1
    kindNow := now.2
    titleDay := day.1
    kindDay := day.2
    priceNowCents := cur * 100
    bakeCostNow := bake_cost cur
    pctVsAvg := pct_vs_avg cur avg
    avgCents := avg * 100
    bakeCostAvg := bake_cost avg
    chart := ks.map fun r => (r.ts, r.price * 100)
    cheapestTable := (nsmallest n ks).map fun r => (r.ts, r.price * 100)
    priciestTable := (nlargest n ks).map fun r => (r.ts, r.price * 100) }

/-- The whole per-request computation of the page: load, slice, convert
to kwh, then render. -/
def pipeline (rows : List RawRow) (market : Nat) (date : Nat) (n : Nat) :
    Except AppError Outputs :=
  match selectSlice (load_data rows) market date with
  | .error e => .error e
  | .ok today => .ok (renderOutputs (toKwh today) n)

/-- C1: bake_reco evaluates its branches in order with first match
winning: price ≤ low gives APPLE_PIE; otherwise price ≥ high gives
CHEESECAKE; otherwise FLEXIBLE; and when low = high a price equal to
both lands in the first branch, APPLE_PIE. -/
theorem bake_reco_branch_order (lowT highT price : ℚ) :
    (price ≤ lowT → (bake_reco lowT highT price).1 = .applePie) ∧
    (¬ price ≤ lowT → highT ≤ price → (bake_reco lowT highT price).1 = .cheesecake) ∧
    (¬ price ≤ lowT → ¬ highT ≤ price → (bake_reco lowT highT price).1 = .flexible) ∧
    (lowT = highT → price = lowT → (bake_reco lowT highT price).1 = .applePie) := by
  refine ⟨fun h => ?_, fun h1 h2 => ?_, fun h1 h2 => ?_, fun he hp => ?_⟩
  · simp [bake_reco, h]
  · simp [bake_reco, h1, ge_iff_le, h2]
  · simp [bake_reco, h1, ge_iff_le, h2]
  · simp [bake_reco, hp.le]

/-- C1 witness: the three branches and the flat-day tie at a concrete
threshold pair. -/
theorem bake_reco_branch_order_witness :
    (bake_reco 2 4 1).1 = .applePie ∧
    (bake_reco 2 4 5).1 = .cheesecake ∧
    (bake_reco 2 4 3).1 = .flexible ∧
    (bake_reco 2 2 2).1 = .applePie := by
  refine ⟨(bake_reco_branch_order 2 4 1).1 (by norm_num),
    (bake_reco_branch_order 2 4 5).2.1 (by norm_num) (by norm_num),
    (bake_reco_branch_order 2 4 3).2.2.1 (by norm_num) (by norm_num),
    (bake_reco_branch_order 2 2 2).2.2.2 rfl rfl⟩

/-- C2 counterexample: the claim says that a price exactly at the high
threshold classifies as unfavorable even when low = high ("unfavorable
taking precedence"); but at low = high = 1 and price = 1 the code's
first branch (≤ low) fires and returns APPLE_PIE, not CHEESECAKE. -/
theorem bake_reco_high_tie_counterexample :
    (bake_reco 1 1 1).1 = .applePie ∧ (bake_reco 1 1 1).1 ≠ .cheesecake := by
  constructor <;> decide

/-- C2 amended: a price exactly at low (when low < high) classifies as
favorable, never neutral; a price exactly at high classifies as
unfavorable when low < high; and when low = high, favorable (not
unfavorable) wins for a price equal to both. -/
theorem bake_reco_boundaries (lowT highT price : ℚ) :
    (lowT < highT → price = lowT → (bake_reco lowT highT price).1 = .applePie) ∧
    (lowT < highT → price = highT → (bake_reco lowT highT price).1 = .cheesecake) ∧
    (lowT = highT → price = lowT → (bake_reco lowT highT price).1 = .applePie) := by
  refine ⟨fun _ hp => ?_, fun hlh hp => ?_, fun _ hp => ?_⟩
  · simp [bake_reco, hp.le]
  · have h1 : ¬ price ≤ lowT := by rw [hp]; exact not_le.mpr hlh
    simp [bake_reco, h1, ge_iff_le, hp.ge]
  · simp [bake_reco, hp.le]

/-- C2 witness: the amended boundary behavior at concrete inputs. -/
theorem bake_reco_boundaries_witness :
    (bake_reco 2 4 2).1 = .applePie ∧
    (bake_reco 2 4 4).1 = .cheesecake ∧
    (bake_reco 3 3 3).1 = .applePie := by
  refine ⟨(bake_reco_boundaries 2 4 2).1 (by norm_num) rfl,
    (bake_reco_boundaries 2 4 4).2.1 (by norm_num) rfl,
    (bake_reco_boundaries 3 3 3).2.2 rfl rfl⟩

/-- C7: the percent delta is the unguarded expression
`((current - baseline) / baseline) * 100` whenever the baseline is
nonzero, and the computation fails (division by zero) when the baseline
is exactly zero. -/
theorem pct_vs_avg_spec (current baseline : ℚ) :
    (baseline ≠ 0 →
      pct_vs_avg current baseline = some (((current - baseline) / baseline) * 100)) ∧
    (baseline = 0 → pct_vs_avg current baseline = none) := by
  constructor
  · intro h; simp [pct_vs_avg, h]
  · intro h; simp [pct_vs_avg, h]

/-- C7 witness: a concrete nonzero baseline and the zero baseline. -/
theorem pct_vs_avg_spec_witness :
    pct_vs_avg 3 2 = some 50 ∧ pct_vs_avg 3 0 = none := by
  constructor
  · rw [(pct_vs_avg_spec 3 2).1 (by norm_num)]; norm_num
  · exact (pct_vs_avg_spec 3 0).2 rfl

/-- C8: toKwh divides every row's price by 1000 exactly, changes no
other field (the timestamp is preserved), never fails, and keeps the
slice length. -/
theorem toKwh_pointwise (s : List SliceRow) (d : SliceRow) (i : Nat)
    (hi : i < s.length) :
    (toKwh s).length = s.length ∧
    ((toKwh s).getD i d).price = (s.getD i d).price / 1000 ∧
    ((toKwh s).getD i d).ts = (s.getD i d).ts := by
  refine ⟨by simp [toKwh], ?_, ?_⟩ <;>
    simp [toKwh, List.getD_eq_getElem?_getD, List.getElem?_eq_getElem hi]

/-- C8 witness: a concrete two-row slice, second row. -/
theorem toKwh_pointwise_witness :
    (toKwh [⟨3, 200⟩, ⟨7, 300⟩]).length = 2 ∧
    ((toKwh [⟨3, 200⟩, ⟨7, 300⟩]).getD 1 default).price =
      (([⟨3, 200⟩, ⟨7, 300⟩] : List SliceRow).getD 1 default).price / 1000 ∧
    ((toKwh [⟨3, 200⟩, ⟨7, 300⟩]).getD 1 default).ts =
      (([⟨3, 200⟩, ⟨7, 300⟩] : List SliceRow).getD 1 default).ts :=
  toKwh_pointwise [⟨3, 200⟩, ⟨7, 300⟩] default 1 (by decide)

/-- C9: the whole rendered page is a pure function of (raw table,
market, date, n): equal selections give identical outputs, with no
hidden state entering the computation. -/
theorem pipeline_deterministic (rows₁ rows₂ : List RawRow)
    (m₁ m₂ d₁ d₂ n₁ n₂ : Nat)
    (hr : rows₁ = rows₂) (hm : m₁ = m₂) (hd : d₁ = d₂) (hn : n₁ = n₂) :
    pipeline rows₁ m₁ d₁ n₁ = pipeline rows₂ m₂ d₂ n₂ := by
  subst hr; subst hm; subst hd; subst hn; rfl

/-- C9 witness: two runs at a concrete selection coincide. -/
theorem pipeline_deterministic_witness :
    pipeline [⟨some 0, [some 100]⟩] 0 0 3 = pipeline [⟨some 0, [some 100]⟩] 0 0 3 :=
  pipeline_deterministic _ _ 0 0 0 0 3 3 rfl rfl rfl rfl

/-- Both quantiles of a one-element value list are that element: the
interpolation position is (1-1)*q = 0. -/
lemma quantile_singleton (x q : ℚ) : quantile [x] q = x := by
  simp [quantile, quantileAt, List.mergeSort]

/-- C10: for a slice with exactly one row, both thresholds equal that
row's kwh price, the latest-hour price equals the daily average (both
being that price), and both recommendations take the favorable ≤ low
branch, APPLE_PIE. -/
theorem singleton_slice_applePie (t : Nat) (p : ℚ) :
    low_thr (toKwh [⟨t, p⟩]) = p / 1000 ∧
    high_thr (toKwh [⟨t, p⟩]) = p / 1000 ∧
    current_price (toKwh [⟨t, p⟩]) = p / 1000 ∧
    dailyAverage (toKwh [⟨t, p⟩]) = p / 1000 ∧
    (bake_reco (low_thr (toKwh [⟨t, p⟩])) (high_thr (toKwh [⟨t, p⟩]))
      (current_price (toKwh [⟨t, p⟩]))).1 = .applePie ∧
    (bake_reco (low_thr (toKwh [⟨t, p⟩])) (high_thr (toKwh [⟨t, p⟩]))
      (dailyAverage (toKwh [⟨t, p⟩]))).1 = .applePie := by
  have hk : toKwh [⟨t, p⟩] = [⟨t, p / 1000⟩] := rfl
  rw [hk]
  have hlow : low_thr [⟨t, p / 1000⟩] = p / 1000 := by
    simp [low_thr, quantile_singleton]
  have hhigh : high_thr [⟨t, p / 1000⟩] = p / 1000 := by
    simp [high_thr, quantile_singleton]
  have hcur : current_price [⟨t, p / 1000⟩] = p / 1000 := by
    simp [current_price]
  have havg : dailyAverage [⟨t, p / 1000⟩] = p / 1000 := by
    simp [dailyAverage]
  refine ⟨hlow, hhigh, hcur, havg, ?_, ?_⟩
  · rw [hlow, hhigh, hcur]; simp [bake_reco]
  · rw [hlow, hhigh, havg]; simp [bake_reco]

/-- In-bounds getD is getElem. -/
lemma getD_of_lt (v : List ℚ) {i : Nat} (h : i < v.length) (d : ℚ) :
    v.getD i d = v[i] := by
  simp [List.getD_eq_getElem?_getD, List.getElem?_eq_getElem h]

/-- Out-of-bounds getD is the default. -/
lemma getD_of_ge (v : List ℚ) {i : Nat} (h : v.length ≤ i) (d : ℚ) :
    v.getD i d = d := by
  rw [List.getD_eq_getElem?_getD v i d, List.getElem?_eq_none h]
  rfl

/-- The boolean ≤ comparator on ℚ is transitive. -/
lemma rat_le_trans_bool :
    ∀ a b c : ℚ, decide (a ≤ b) → decide (b ≤ c) → decide (a ≤ c) := by
  intro a b c hab hbc
  simp only [decide_eq_true_eq] at *
  exact le_trans hab hbc

/-- The boolean ≤ comparator on ℚ is total. -/
lemma rat_le_total_bool : ∀ a b : ℚ, decide (a ≤ b) || decide (b ≤ a) := by
  intro a b
  simpa using le_total a b

/-- mergeSort with the boolean ≤ comparator yields a ≤-sorted list. -/
lemma mergeSortRat_sorted (xs : List ℚ) :
    (xs.mergeSort fun a b => decide (a ≤ b)).Pairwise (· ≤ ·) := by
  have h := List.sorted_mergeSort rat_le_trans_bool rat_le_total_bool xs
  exact h.imp fun hab => of_decide_eq_true hab

/-- A ≤-sorted list is monotone at in-bounds getD indices. -/
lemma sorted_getD_le (v : List ℚ) (hv : v.Pairwise (· ≤ ·)) {i j : Nat}
    (hij : i ≤ j) (hj : j < v.length) :
    v.getD i 0 ≤ v.getD j 0 := by
  have hi : i < v.length := lt_of_le_of_lt hij hj
  rw [getD_of_lt v hi, getD_of_lt v hj]
  rcases Nat.lt_or_ge i j with hlt | hge
  · exact List.pairwise_iff_getElem.mp hv i j hi hj hlt
  · have : i = j := le_antisymm hij hge
    subst this; exact le_refl _

/-- Linear interpolation into a sorted list is monotone in the
position. -/
lemma quantileAt_mono (v : List ℚ) (hv : v.Pairwise (· ≤ ·)) {h1 h2 : ℚ}
    (h1nn : 0 ≤ h1) (h12 : h1 ≤ h2) (h2ub : h2 ≤ (v.length : ℚ) - 1) :
    quantileAt v h1 ≤ quantileAt v h2 := by
  have h2nn : 0 ≤ h2 := le_trans h1nn h12
  have hf1 : (0:ℤ) ≤ ⌊h1⌋ := Int.floor_nonneg.mpr h1nn
  have hf2 : (0:ℤ) ≤ ⌊h2⌋ := Int.floor_nonneg.mpr h2nn
  simp only [quantileAt]
  set i1 := (⌊h1⌋).toNat with hi1def
  set i2 := (⌊h2⌋).toNat with hi2def
  have e1 : ((i1 : ℤ)) = ⌊h1⌋ := Int.toNat_of_nonneg hf1
  have e2 : ((i2 : ℤ)) = ⌊h2⌋ := Int.toNat_of_nonneg hf2
  have e1q : (i1 : ℚ) = ((⌊h1⌋ : ℤ) : ℚ) := by
    exact_mod_cast congrArg (fun z : ℤ => (z : ℚ)) e1
  have e2q : (i2 : ℚ) = ((⌊h2⌋ : ℤ) : ℚ) := by
    exact_mod_cast congrArg (fun z : ℤ => (z : ℚ)) e2
  have l1 : (i1 : ℚ) ≤ h1 := by rw [e1q]; exact Int.floor_le h1
  have u1 : h1 < (i1 : ℚ) + 1 := by rw [e1q]; exact_mod_cast Int.lt_floor_add_one h1
  have l2 : (i2 : ℚ) ≤ h2 := by rw [e2q]; exact Int.floor_le h2
  have hi12 : i1 ≤ i2 := by
    have hf : ⌊h1⌋ ≤ ⌊h2⌋ := Int.floor_le_floor h12
    omega
  have hi2n : i2 < v.length := by
    have hfl : (⌊h2⌋ : ℚ) ≤ ((v.length : ℤ) : ℚ) - 1 := by
      push_cast
      exact le_trans (Int.floor_le h2) h2ub
    have hle : ⌊h2⌋ ≤ (v.length : ℤ) - 1 := by exact_mod_cast hfl
    omega
  have hi1n : i1 < v.length := lt_of_le_of_lt hi12 hi2n
  rcases Nat.eq_or_lt_of_le hi12 with heq | hlt
  · rw [← heq]
    by_cases hc : i1 + 1 < v.length
    · have hle : v.getD i1 0 ≤ v.getD (i1+1) 0 :=
        sorted_getD_le v hv (Nat.le_succ i1) hc
      have hDef : v.getD (i1+1) (v.getD i1 0) = v.getD (i1+1) 0 := by
        rw [getD_of_lt v hc, getD_of_lt v hc]
      rw [hDef]
      have hmul := mul_le_mul_of_nonneg_right (sub_le_sub_right h12 (i1:ℚ))
        (sub_nonneg.mpr hle)
      linarith
    · have hDef : v.getD (i1+1) (v.getD i1 0) = v.getD i1 0 :=
        getD_of_ge v (le_of_not_lt hc) _
      rw [hDef]
      simp
  · have hc1 : i1 + 1 < v.length := lt_of_le_of_lt hlt hi2n
    have t1le : h1 - (i1:ℚ) ≤ 1 := by linarith
    have t1nn : (0:ℚ) ≤ h1 - (i1:ℚ) := by linarith
    have hlo1m1 : v.getD i1 0 ≤ v.getD (i1+1) 0 :=
      sorted_getD_le v hv (Nat.le_succ i1) hc1
    have hm1lo2 : v.getD (i1+1) 0 ≤ v.getD i2 0 :=
      sorted_getD_le v hv hlt hi2n
    have hDef1 : v.getD (i1+1) (v.getD i1 0) = v.getD (i1+1) 0 := by
      rw [getD_of_lt v hc1, getD_of_lt v hc1]
    rw [hDef1]
    have step1 : v.getD i1 0 + (h1 - (i1:ℚ)) * (v.getD (i1+1) 0 - v.getD i1 0)
        ≤ v.getD (i1+1) 0 := by
      nlinarith [mul_le_mul_of_nonneg_right t1le (sub_nonneg.mpr hlo1m1)]
    have hhi2 : v.getD i2 0 ≤ v.getD (i2+1) (v.getD i2 0) := by
      by_cases hc2 : i2 + 1 < v.length
      · have hDef2 : v.getD (i2+1) (v.getD i2 0) = v.getD (i2+1) 0 := by
          rw [getD_of_lt v hc2, getD_of_lt v hc2]
        rw [hDef2]
        exact sorted_getD_le v hv (Nat.le_succ i2) hc2
      · rw [getD_of_ge v (le_of_not_lt hc2) _]
    have t2nn : (0:ℚ) ≤ h2 - (i2:ℚ) := by linarith
    have step3 : v.getD i2 0
        ≤ v.getD i2 0 + (h2 - (i2:ℚ)) * (v.getD (i2+1) (v.getD i2 0) - v.getD i2 0) := by
      nlinarith [mul_nonneg t2nn (sub_nonneg.mpr hhi2)]
    linarith

/-- The linear-interpolation quantile of a constant value list is that
constant, for any quantile level in [0, 1]. -/
lemma quantile_const (xs : List ℚ) (c q : ℚ) (hne : xs ≠ [])
    (hc : ∀ x ∈ xs, x = c) (hq0 : 0 ≤ q) (hq1 : q ≤ 1) :
    quantile xs q = c := by
  rw [quantile]
  set v := xs.mergeSort fun a b => decide (a ≤ b) with hv
  have hlen : v.length = xs.length := List.length_mergeSort xs
  have hvc : ∀ x ∈ v, x = c := by
    intro x hx
    exact hc x (List.mem_mergeSort.mp hx)
  have hn1 : 1 ≤ xs.length := List.length_pos.mpr hne
  have hn1q : (1:ℚ) ≤ (xs.length : ℚ) := by exact_mod_cast hn1
  set h := ((xs.length : ℚ) - 1) * q with hh
  have hnn : 0 ≤ h := mul_nonneg (by linarith) hq0
  have hub : h ≤ (xs.length : ℚ) - 1 := by
    calc ((xs.length : ℚ) - 1) * q ≤ ((xs.length : ℚ) - 1) * 1 :=
          mul_le_mul_of_nonneg_left hq1 (by linarith)
      _ = (xs.length : ℚ) - 1 := mul_one _
  have hfnn : (0:ℤ) ≤ ⌊h⌋ := Int.floor_nonneg.mpr hnn
  have hin : (⌊h⌋).toNat < v.length := by
    have hfl : (⌊h⌋ : ℚ) ≤ ((xs.length : ℤ) : ℚ) - 1 := by
      push_cast
      exact le_trans (Int.floor_le h) hub
    have hle : ⌊h⌋ ≤ (xs.length : ℤ) - 1 := by exact_mod_cast hfl
    omega
  rw [quantileAt]
  have hlo : v.getD (⌊h⌋).toNat 0 = c := by
    rw [getD_of_lt v hin]
    exact hvc _ (List.getElem_mem hin)
  by_cases hc2 : (⌊h⌋).toNat + 1 < v.length
  · have hhi : v.getD ((⌊h⌋).toNat + 1) (v.getD (⌊h⌋).toNat 0) = c := by
      rw [getD_of_lt v hc2]
      exact hvc _ (List.getElem_mem hc2)
    rw [hhi, hlo]
    ring
  · have hhi : v.getD ((⌊h⌋).toNat + 1) (v.getD (⌊h⌋).toNat 0) = v.getD (⌊h⌋).toNat 0 :=
      getD_of_ge v (le_of_not_lt hc2) _
    rw [hhi, hlo]
    ring

/-- C3 counterexample: on the slice with kwh prices 1, 1, 1, 2 both
interpolation positions fall inside the run of equal values, so
low = high = 1 even though not all prices are equal; the claimed
"if and only if" fails in the right-to-left direction. -/
theorem thresholds_eq_counterexample :
    low_thr [⟨0, 1⟩, ⟨1, 1⟩, ⟨2, 1⟩, ⟨3, 2⟩] = high_thr [⟨0, 1⟩, ⟨1, 1⟩, ⟨2, 1⟩, ⟨3, 2⟩] ∧
    ¬ (∀ r ∈ ([⟨0, 1⟩, ⟨1, 1⟩, ⟨2, 1⟩, ⟨3, 2⟩] : List SliceRow),
        ∀ s ∈ ([⟨0, 1⟩, ⟨1, 1⟩, ⟨2, 1⟩, ⟨3, 2⟩] : List SliceRow), r.price = s.price) := by
  constructor
  · show quantile [(1:ℚ), 1, 1, 2] (33/100) = quantile [(1:ℚ), 1, 1, 2] (66/100)
    rw [quantile, quantile, List.mergeSort_of_sorted (by decide)]
    decide
  · decide

/-- C3 amended: for every non-empty slice the 33rd/66th linear
interpolation percentiles satisfy low ≤ high, and if all prices in the
slice are equal then low = high (the converse can fail, as the
counterexample shows). -/
theorem thresholds_ordered (ks : List SliceRow) (hne : ks ≠ []) :
    low_thr ks ≤ high_thr ks ∧
    ((∀ r ∈ ks, ∀ s ∈ ks, r.price = s.price) → low_thr ks = high_thr ks) := by
  have hmape : ks.map (·.price) ≠ [] := by simpa using hne
  have hn1 : 1 ≤ (ks.map (·.price)).length := List.length_pos.mpr hmape
  have hn1q : (1:ℚ) ≤ ((ks.map (·.price)).length : ℚ) := by exact_mod_cast hn1
  constructor
  · rw [low_thr, high_thr, quantile, quantile]
    apply quantileAt_mono _ (mergeSortRat_sorted _)
    · exact mul_nonneg (by linarith) (by norm_num)
    · exact mul_le_mul_of_nonneg_left (by norm_num) (by linarith)
    · rw [List.length_mergeSort]
      calc (((ks.map (·.price)).length : ℚ) - 1) * (66/100)
          ≤ (((ks.map (·.price)).length : ℚ) - 1) * 1 :=
            mul_le_mul_of_nonneg_left (by norm_num) (by linarith)
        _ = ((ks.map (·.price)).length : ℚ) - 1 := mul_one _
  · intro hall
    have hc : ∀ x ∈ ks.map (·.price), x = (ks.head hne).price := by
      intro x hx
      rcases List.mem_map.mp hx with ⟨r, hr, rfl⟩
      exact hall r hr (ks.head hne) (List.head_mem hne)
    rw [low_thr, high_thr,
      quantile_const _ _ _ hmape hc (by norm_num) (by norm_num),
      quantile_const _ _ _ hmape hc (by norm_num) (by norm_num)]

/-- C3 witness: a concrete three-row slice with distinct prices. -/
theorem thresholds_ordered_witness :
    low_thr [⟨0, 1⟩, ⟨1, 2⟩, ⟨2, 3⟩] ≤ high_thr [⟨0, 1⟩, ⟨1, 2⟩, ⟨2, 3⟩] ∧
    ((∀ r ∈ ([⟨0, 1⟩, ⟨1, 2⟩, ⟨2, 3⟩] : List SliceRow),
        ∀ s ∈ ([⟨0, 1⟩, ⟨1, 2⟩, ⟨2, 3⟩] : List SliceRow), r.price = s.price) →
      low_thr [⟨0, 1⟩, ⟨1, 2⟩, ⟨2, 3⟩] = high_thr [⟨0, 1⟩, ⟨1, 2⟩, ⟨2, 3⟩]) :=
  thresholds_ordered [⟨0, 1⟩, ⟨1, 2⟩, ⟨2, 3⟩] (by decide)

/-- Stability of the stable sort: sorting rows whose timestamps strictly
increase yields a list that is pairwise ordered by the comparator, and
in which two rows the comparator considers tied (comparable both ways)
keep their original time order. -/
lemma mergeSort_pairwise_stable (le : SliceRow → SliceRow → Bool)
    (htr : ∀ a b c, le a b → le b c → le a c)
    (hto : ∀ a b, le a b || le b a)
    (l : List SliceRow) (hl : l.Pairwise fun a b => a.ts < b.ts) :
    (l.mergeSort le).Pairwise fun a b => le a b = true ∧ (le b a = true → a.ts < b.ts) := by
  rw [← List.mergeSort_enum]
  set o := List.mergeSort l.enum (List.enumLE le) with ho
  have hpw : o.Pairwise fun x y => List.enumLE le x y :=
    List.sorted_mergeSort (List.enumLE_trans htr) (List.enumLE_total hto) _
  have hperm : o.Perm l.enum := List.mergeSort_perm _ _
  have hfst : (o.map Prod.fst).Nodup := by
    have hp2 : (o.map Prod.fst).Perm (l.enum.map Prod.fst) := hperm.map _
    rw [hp2.nodup_iff, List.enum_map_fst]
    exact List.nodup_range _
  rw [List.pairwise_iff_getElem]
  intro i j hi hj hij
  have hi' : i < o.length := by simpa using hi
  have hj' : j < o.length := by simpa using hj
  have hLE : List.enumLE le o[i] o[j] :=
    List.pairwise_iff_getElem.mp hpw i j hi' hj' hij
  have hne : (o[i]).1 ≠ (o[j]).1 := by
    intro hcontra
    have hmi' : i < (o.map Prod.fst).length := by simpa using hi'
    have hmj' : j < (o.map Prod.fst).length := by simpa using hj'
    have h1 : (o.map Prod.fst)[i] = (o.map Prod.fst)[j] := by
      simpa using hcontra
    have := (hfst.getElem_inj_iff).mp h1
    omega
  have hmi : o[i] ∈ l.enum := hperm.subset (List.getElem_mem hi')
  have hmj : o[j] ∈ l.enum := hperm.subset (List.getElem_mem hj')
  rw [List.mem_enum_iff_getElem?] at hmi hmj
  obtain ⟨hbi, hgi⟩ := List.getElem?_eq_some_iff.mp hmi
  obtain ⟨hbj, hgj⟩ := List.getElem?_eq_some_iff.mp hmj
  simp only [List.getElem_map]
  simp only [List.enumLE] at hLE
  by_cases h1 : le (o[i]).2 (o[j]).2
  · refine ⟨h1, fun hba => ?_⟩
    rw [if_pos h1, if_pos hba] at hLE
    have hidx : (o[i]).1 ≤ (o[j]).1 := of_decide_eq_true hLE
    have hlt : (o[i]).1 < (o[j]).1 := lt_of_le_of_ne hidx hne
    have := List.pairwise_iff_getElem.mp hl (o[i]).1 (o[j]).1 hbi hbj hlt
    rw [hgi, hgj] at this
    exact this
  · rw [if_neg h1] at hLE
    exact absurd hLE (by simp)

/-- C4: for a non-empty time-ordered slice and n in 1..8, the cheapest
and priciest rankings each have length min(n, len); cheapest is
ascending by price and priciest descending; and rows with equal prices
keep the slice's original time order in both (stability), expressed as
the strengthened pairwise orders in which price ties force increasing
timestamps. -/
theorem rankExtremes_spec (ks : List SliceRow) (n : Nat) (hne : ks ≠ [])
    (hn1 : 1 ≤ n) (hn8 : n ≤ 8) (hts : ks.Pairwise fun a b => a.ts < b.ts) :
    (nsmallest n ks).length = min n ks.length ∧
    (nlargest n ks).length = min n ks.length ∧
    (nsmallest n ks).Pairwise (fun a b => a.price ≤ b.price) ∧
    (nlargest n ks).Pairwise (fun a b => b.price ≤ a.price) ∧
    (nsmallest n ks).Pairwise
      (fun a b => a.price < b.price ∨ (a.price = b.price ∧ a.ts < b.ts)) ∧
    (nlargest n ks).Pairwise
      (fun a b => b.price < a.price ∨ (a.price = b.price ∧ a.ts < b.ts)) := by
  have hasc := mergeSort_pairwise_stable (fun a b => decide (a.price ≤ b.price))
    (by intro a b c hab hbc; simp only [decide_eq_true_eq] at *; exact le_trans hab hbc)
    (by intro a b; simpa using le_total _ _) ks hts
  have hdesc := mergeSort_pairwise_stable (fun a b => decide (b.price ≤ a.price))
    (by intro a b c hab hbc; simp only [decide_eq_true_eq] at *; exact le_trans hbc hab)
    (by intro a b; simpa using le_total _ _) ks hts
  have hascT := List.Pairwise.sublist (List.take_sublist n _) hasc
  have hdescT := List.Pairwise.sublist (List.take_sublist n _) hdesc
  refine ⟨?_, ?_, ?_, ?_, ?_, ?_⟩
  · simp [nsmallest]
  · simp [nlargest]
  · exact hascT.imp fun hab => of_decide_eq_true hab.1
  · exact hdescT.imp fun hab => of_decide_eq_true hab.1
  · refine hascT.imp ?_
    rintro a b ⟨hab, hcond⟩
    by_cases heq : a.price = b.price
    · exact Or.inr ⟨heq, hcond (decide_eq_true heq.ge)⟩
    · exact Or.inl (lt_of_le_of_ne (of_decide_eq_true hab) heq)
  · refine hdescT.imp ?_
    rintro a b ⟨hab, hcond⟩
    by_cases heq : a.price = b.price
    · exact Or.inr ⟨heq, hcond (decide_eq_true heq.le)⟩
    · exact Or.inl (lt_of_le_of_ne (of_decide_eq_true hab) (Ne.symm heq))

/-- C4 witness: a three-row slice with a price tie, n = 2. -/
theorem rankExtremes_spec_witness :
    (nsmallest 2 [⟨0, 5⟩, ⟨1, 5⟩, ⟨2, 3⟩]).length = min 2 3 ∧
    (nlargest 2 [⟨0, 5⟩, ⟨1, 5⟩, ⟨2, 3⟩]).length = min 2 3 ∧
    (nsmallest 2 [⟨0, 5⟩, ⟨1, 5⟩, ⟨2, 3⟩]).Pairwise (fun a b => a.price ≤ b.price) ∧
    (nlargest 2 [⟨0, 5⟩, ⟨1, 5⟩, ⟨2, 3⟩]).Pairwise (fun a b => b.price ≤ a.price) ∧
    (nsmallest 2 [⟨0, 5⟩, ⟨1, 5⟩, ⟨2, 3⟩]).Pairwise
      (fun a b => a.price < b.price ∨ (a.price = b.price ∧ a.ts < b.ts)) ∧
    (nlargest 2 [⟨0, 5⟩, ⟨1, 5⟩, ⟨2, 3⟩]).Pairwise
      (fun a b => b.price < a.price ∨ (a.price = b.price ∧ a.ts < b.ts)) :=
  rankExtremes_spec [⟨0, 5⟩, ⟨1, 5⟩, ⟨2, 3⟩] 2 (by decide) (by decide) (by decide)
    (by decide)

/-- A produced slice row carries its source row's timestamp, and that
timestamp normalizes to the selected date. -/
lemma sliceRowOf_mem {m d : Nat} {r : Row} {x : SliceRow}
    (hx : sliceRowOf m d r = some x) : x.ts = r.ts ∧ normalizeTs r.ts = d := by
  by_cases hif : normalizeTs r.ts = d
  · rw [sliceRowOf, if_pos hif] at hx
    rcases Option.map_eq_some'.mp hx with ⟨p, _, hpx⟩
    exact ⟨congrArg SliceRow.ts hpx.symm, hif⟩
  · rw [sliceRowOf, if_neg hif] at hx
    cases hx

/-- C5: on a time-ordered table, selectSlice filters to the calendar
date, projects the market and drops missing prices; a successful result
is non-empty, time-ordered, and every timestamp normalizes to the
selected date; and it fails with the empty-slice error exactly when no
valid row remains (including a date whose prices are all missing for
the market). -/
theorem selectSlice_spec (table : List Row) (market date : Nat)
    (hsorted : table.Pairwise fun a b => a.ts ≤ b.ts) :
    (∀ s, selectSlice table market date = .ok s →
      s ≠ [] ∧ s.Pairwise (fun a b => a.ts ≤ b.ts) ∧
        ∀ r ∈ s, normalizeTs r.ts = date) ∧
    (selectSlice table market date = .error .emptySlice ↔
      table.filterMap (sliceRowOf market date) = []) := by
  constructor
  · intro s hs
    simp only [selectSlice] at hs
    by_cases hemp : (table.filterMap (sliceRowOf market date)).isEmpty
    · rw [if_pos hemp] at hs; cases hs
    · rw [if_neg hemp] at hs
      have hF := Except.ok.inj hs
      subst hF
      refine ⟨?_, ?_, ?_⟩
      · intro hnil
        rw [hnil] at hemp
        simp at hemp
      · refine List.pairwise_filterMap.mpr (hsorted.imp ?_)
        intro a b hab x hx y hy
        rcases sliceRowOf_mem hx with ⟨hxa, _⟩
        rcases sliceRowOf_mem hy with ⟨hyb, _⟩
        rw [hxa, hyb]
        exact hab
      · intro r hr
        rcases List.mem_filterMap.mp hr with ⟨a, _, hfa⟩
        rcases sliceRowOf_mem hfa with ⟨hts, hnorm⟩
        rw [hts]
        exact hnorm
  · constructor
    · intro h
      simp only [selectSlice] at h
      by_cases hemp : (table.filterMap (sliceRowOf market date)).isEmpty
      · exact List.isEmpty_iff.mp hemp
      · rw [if_neg hemp] at h
        cases h
    · intro h
      simp [selectSlice, h]

/-- C5 witness: a sorted two-row table whose second row lies on the next
calendar date; one row with a missing price on day one. -/
theorem selectSlice_spec_witness :
    (∀ s, selectSlice [⟨0, [some 100]⟩, ⟨2, [none]⟩, ⟨25, [some 50]⟩] 0 0 = .ok s →
      s ≠ [] ∧ s.Pairwise (fun a b => a.ts ≤ b.ts) ∧
        ∀ r ∈ s, normalizeTs r.ts = 0) ∧
    (selectSlice [⟨0, [some 100]⟩, ⟨2, [none]⟩, ⟨25, [some 50]⟩] 0 0 = .error .emptySlice ↔
      ([⟨0, [some 100]⟩, ⟨2, [none]⟩, ⟨25, [some 50]⟩] : List Row).filterMap
        (sliceRowOf 0 0) = []) :=
  selectSlice_spec [⟨0, [some 100]⟩, ⟨2, [none]⟩, ⟨25, [some 50]⟩] 0 0 (by decide)

/-- The boolean timestamp comparator on rows is transitive. -/
lemma row_ts_le_trans_bool :
    ∀ a b c : Row, decide (a.ts ≤ b.ts) → decide (b.ts ≤ c.ts) → decide (a.ts ≤ c.ts) := by
  intro a b c hab hbc
  simp only [decide_eq_true_eq] at *
  omega

/-- The boolean timestamp comparator on rows is total. -/
lemma row_ts_le_total_bool : ∀ a b : Row, decide (a.ts ≤ b.ts) || decide (b.ts ≤ a.ts) := by
  intro a b
  simpa using Nat.le_total a.ts b.ts

/-- Loading always yields timestamps in nondecreasing order. -/
lemma load_data_le_sorted (rows : List RawRow) :
    (load_data rows).Pairwise fun a b => a.ts ≤ b.ts := by
  have h := List.sorted_mergeSort row_ts_le_trans_bool row_ts_le_total_bool
    (rows.filterMap parseRow)
  exact h.imp fun hab => of_decide_eq_true hab

/-- The timestamps of the parsed rows are exactly the parseable
timestamps of the input. -/
lemma parsed_ts_map (rows : List RawRow) :
    (rows.filterMap parseRow).map (·.ts) = rows.filterMap (·.ts?) := by
  rw [List.map_filterMap]
  have hfn : (fun a : RawRow => (parseRow a).map (·.ts)) = fun a : RawRow => a.ts? := by
    funext a
    cases h : a.ts? <;> simp [parseRow, h]
  rw [hfn]

/-- C6 counterexample: loading two rows that both parse to timestamp 5
keeps both, so the loaded timestamps are neither unique nor strictly
increasing; the code only sorts, it never deduplicates. -/
theorem load_data_unique_counterexample :
    (load_data [⟨some 5, []⟩, ⟨some 5, []⟩]).map (·.ts) = [5, 5] ∧
    ¬ (load_data [⟨some 5, []⟩, ⟨some 5, []⟩]).Pairwise (fun a b => a.ts < b.ts) := by
  have h := List.mergeSort_of_sorted
    (show List.Pairwise (fun a b : Row => decide (a.ts ≤ b.ts) = true)
      (List.filterMap parseRow [⟨some 5, []⟩, ⟨some 5, []⟩]) from by decide)
  constructor
  · unfold load_data
    rw [h]
    decide
  · unfold load_data
    rw [h]
    decide

/-- C6 amended: after load the timestamps are sorted nondecreasingly,
every surviving row comes from an input row whose timestamp parsed (rows
with unparseable timestamps are discarded), and when the parseable input
timestamps are pairwise distinct the loaded timestamps are unique and
strictly increasing. -/
theorem load_data_invariant (rows : List RawRow) :
    (load_data rows).Pairwise (fun a b => a.ts ≤ b.ts) ∧
    (∀ r ∈ load_data rows, ({ ts? := some r.ts, prices := r.prices } : RawRow) ∈ rows) ∧
    ((rows.filterMap (·.ts?)).Nodup →
      (load_data rows).Pairwise (fun a b => a.ts < b.ts)) := by
  refine ⟨load_data_le_sorted rows, ?_, ?_⟩
  · intro r hr
    have hr' : r ∈ rows.filterMap parseRow := List.mem_mergeSort.mp hr
    rcases List.mem_filterMap.mp hr' with ⟨raw, hraw, hpr⟩
    rcases Option.map_eq_some'.mp hpr with ⟨t, ht, hrt⟩
    have h1 : r.ts = t := by rw [← hrt]
    have h2 : r.prices = raw.prices := by rw [← hrt]
    have heq : ({ ts? := some r.ts, prices := r.prices } : RawRow) = raw := by
      obtain ⟨rts, rps⟩ := raw
      simp only at ht h2
      rw [h1, h2, ← ht]
    rw [heq]
    exact hraw
  · intro hnodup
    have hperm : ((load_data rows).map (·.ts)).Perm
        ((rows.filterMap parseRow).map (·.ts)) :=
      (List.mergeSort_perm _ _).map _
    have hnd : ((load_data rows).map (·.ts)).Nodup := by
      rw [hperm.nodup_iff, parsed_ts_map]
      exact hnodup
    have hne : (load_data rows).Pairwise fun a b => a.ts ≠ b.ts :=
      List.pairwise_map.mp hnd
    exact ((load_data_le_sorted rows).and hne).imp fun hab =>
      lt_of_le_of_ne hab.1 hab.2

/-- C6 witness: out-of-order input with an unparseable middle row and
distinct parseable timestamps. -/
theorem load_data_invariant_witness :
    (load_data [⟨some 25, []⟩, ⟨none, [some 1]⟩, ⟨some 3, [some 7]⟩]).Pairwise
      (fun a b => a.ts ≤ b.ts) ∧
    (∀ r ∈ load_data [⟨some 25, []⟩, ⟨none, [some 1]⟩, ⟨some 3, [some 7]⟩],
      ({ ts? := some r.ts, prices := r.prices } : RawRow) ∈
        ([⟨some 25, []⟩, ⟨none, [some 1]⟩, ⟨some 3, [some 7]⟩] : List RawRow)) ∧
    ((([⟨some 25, []⟩, ⟨none, [some 1]⟩, ⟨some 3, [some 7]⟩] : List RawRow).filterMap
        (·.ts?)).Nodup →
      (load_data [⟨some 25, []⟩, ⟨none, [some 1]⟩, ⟨some 3, [some 7]⟩]).Pairwise
        (fun a b => a.ts < b.ts)) :=
  load_data_invariant [⟨some 25, []⟩, ⟨none, [some 1]⟩, ⟨some 3, [some 7]⟩]
